import Mathlib

/-!
Verification of the task-dependency-management system's dependency-graph
status engine.

The definitions below are a shallow embedding of the Python sources:
  - `src/backend/tasks/models.py` (Task, TaskDependency, save hooks)
  - `src/backend/tasks/status_updater.py` (TaskStatusUpdater)
  - `src/backend/tasks/views.py` (TaskViewSet.add_dependency, destroy)

The database is modelled as a `State`: a keyed store of task records
(`Nat → Option Task`, the primary key being the task id) together with the
list of dependency edges `(task_id, depends_on_id)` — i.e. the first
component is the dependent, the second the prerequisite.
-/

namespace TaskDeps

/-- Task status, the closed enumeration `Task.STATUS_CHOICES` from models.py. -/
inductive Status where
  | pending
  | in_progress
  | completed
  | blocked
deriving DecidableEq, Repr

/-- A task record: `title` and `status` (ids are the keys of the store;
description and timestamps do not influence the engine). -/
structure Task where
  title : String
  status : Status
deriving DecidableEq, Repr

/-- The durable store: task records keyed by id, plus the dependency edge
rows `(task_id, depends_on_id)` of the `task_dependencies` table. -/
structure State where
  tasks : Nat → Option Task
  edges : List (Nat × Nat)

/-- Status of a task id in the store, if the task exists. -/
def statusOf (s : State) (tid : Nat) : Option Status :=
  (s.tasks tid).map (fun tk => tk.status)

/-- Title of a task id in the store (empty if absent; foreign keys make the
absent case unreachable in the real database). -/
def titleOf (s : State) (tid : Nat) : String :=
  match s.tasks tid with
  | some tk => tk.title
  | none => ""

/-- `TaskDependency.objects.filter(task_id=tid)`: the direct prerequisite
edges of `tid`. -/
def prereqEdges (s : State) (tid : Nat) : List (Nat × Nat) :=
  s.edges.filter (fun e => e.1 = tid)

/-- `TaskDependency.objects.filter(depends_on_id=tid).values_list('task_id').distinct()`:
the ids of the direct dependents of `tid`, without repetition. -/
def dependentsOf (s : State) (tid : Nat) : List Nat :=
  ((s.edges.filter (fun e => e.2 = tid)).map (fun e => e.1)).dedup

/-- `dep.depends_on.status == 'completed'` as a Boolean over the store (the
prerequisite record always exists in the real database, by foreign key). -/
def isCompleted (s : State) (tid : Nat) : Bool :=
  decide (statusOf s tid = some Status.completed)

/-- Write `ns` into the status field of task `tid` (the
`task.save(update_fields=['status', 'updated_at'])` write). -/
def setTaskStatus (s : State) (tid : Nat) (ns : Status) : State :=
  { s with tasks := fun id =>
      if id = tid then (s.tasks id).map (fun tk => { tk with status := ns })
      else s.tasks id }

/-- The status `update_status_from_dependencies` would assign: `'pending'`
when every direct prerequisite is completed (`all_completed`), `'blocked'`
otherwise (status_updater.py lines 34-45). -/
def deriveStatus (s : State) (tid : Nat) : Status :=
  if (prereqEdges s tid).all (fun e => isCompleted s e.2) then Status.pending
  else Status.blocked

/-- `TaskStatusUpdater.update_status_from_dependencies` (status_updater.py
lines 16-58). Returns the store after the call and the function's Boolean
result (`True` iff the status was written). -/
def update_status_from_dependencies (s : State) (tid : Nat) : State × Bool :=
  match s.tasks tid with
  | none => (s, false)
  | some task =>
    -- If no dependencies, don't change status automatically
    if prereqEdges s tid = [] then (s, false)
    else
      let new_status := deriveStatus s tid
      -- Only update if status actually changed (and never off of 'completed')
      if task.status ≠ new_status ∧ task.status ≠ Status.completed then
        (setTaskStatus s tid new_status, true)
      else (s, false)

/-- `TaskStatusUpdater.cascade_update_on_completion` (status_updater.py lines
60-88), with a fuel bound on the recursion depth and an instrumentation
trace recording each task id on which `update_status_from_dependencies` is
invoked during the pass. -/
def cascadeAux : Nat → State → Nat → State × List Nat
  | 0, s, _ => (s, [])
  | fuel + 1, s, tid =>
    match s.tasks tid with
    | none => (s, [])
    | some task =>
      -- Only cascade if task is actually completed
      if task.status = Status.completed then
        (dependentsOf s tid).foldl
          (fun acc dep =>
            let r := update_status_from_dependencies acc.1 dep
            if r.2 then
              -- If this dependent task was updated, cascade further
              let c := cascadeAux fuel r.1 dep
              (c.1, acc.2 ++ [dep] ++ c.2)
            else (r.1, acc.2 ++ [dep]))
          (s, [])
      else (s, [])

/-- The cascade entry point, with enough fuel for any chain in the store. -/
def cascade_update_on_completion (s : State) (tid : Nat) : State × List Nat :=
  cascadeAux (s.edges.length + 1) s tid

/-- `Task.save` for a status write (models.py lines 30-48): persist the new
status, and when the status changes to `'completed'`, run the cascade.
The second component is the cascade's derivation trace. -/
def set_status (s : State) (tid : Nat) (ns : Status) : State × List Nat :=
  match s.tasks tid with
  | none => (s, [])
  | some task =>
    let s1 := setTaskStatus s tid ns
    if task.status ≠ ns ∧ ns = Status.completed then
      cascade_update_on_completion s1 tid
    else (s1, [])

/-- Sequential re-derivation of a list of task ids (the loop body of the
cascade once the dead recursive call is discounted). -/
def foldDerive (s : State) (ds : List Nat) : State :=
  ds.foldl (fun st d => (update_status_from_dependencies st d).1) s

/-- Reverse every edge: `(dependent, prerequisite)` becomes
`(prerequisite, dependent)`, the direction a completion cascade travels. -/
def flipEdges (E : List (Nat × Nat)) : List (Nat × Nat) :=
  E.map (fun e => (e.2, e.1))

/-- Reachability along the directed edges of `E`. -/
inductive Reach (E : List (Nat × Nat)) : Nat → Nat → Prop where
  | refl (a : Nat) : Reach E a a
  | step {a b c : Nat} : (a, b) ∈ E → Reach E b c → Reach E a c

/-- A concrete directed path in `E` from `a` to `b`: the list of visited
nodes, consecutive nodes joined by an edge of `E`. -/
inductive IsPathFrom (E : List (Nat × Nat)) : Nat → Nat → List Nat → Prop where
  | single (a : Nat) : IsPathFrom E a a [a]
  | cons {a b c : Nat} {l : List Nat} :
      (a, b) ∈ E → IsPathFrom E b c l → IsPathFrom E a c (a :: l)

/-- The edge list has no directed cycle: no edge `(a, b)` closes a loop
back from `b` to `a`. -/
def Acyclic (E : List (Nat × Nat)) : Prop :=
  ∀ a b, (a, b) ∈ E → ¬ Reach E b a

/-- First successful result of `f` over a list of candidate nodes. -/
def firstSome (f : Nat → Option (List Nat)) : List Nat → Option (List Nat)
  | [] => none
  | a :: as =>
    match f a with
    | some r => some r
    | none => firstSome f as

/-- The nodes one edge forward of `node`: the prerequisites of `node`. -/
def nextIds (E : List (Nat × Nat)) (node : Nat) : List Nat :=
  (E.filter (fun e => e.1 = node)).map (fun e => e.2)

/-- Modelled from the spec: the depth-first traversal of
`CircularDependencyChecker` (src/backend/tasks/dependency_checker.py is not
under src/). Spec §4.1: starting at the proposed prerequisite, follow
"prerequisite-of" edges until the dependent is found (cycle, return the
discovered path) or the reachable set is exhausted (no cycle), marking
visited nodes to guarantee termination. -/
def dfsPath (E : List (Nat × Nat)) (target : Nat) :
    Nat → List Nat → Nat → Option (List Nat)
  | 0, _, _ => none
  | fuel + 1, visited, node =>
    if node = target then some [node]
    else if node ∈ visited then none
    else
      match firstSome (fun nx => dfsPath E target fuel (node :: visited) nx)
          (nextIds E node) with
      | some rest => some (node :: rest)
      | none => none

/-- Modelled from the spec:
`CircularDependencyChecker.detect_circular_dependency(task_id, depends_on_id)`
(its source file is not under src/; views.py lines 97-110 consume its
`has_cycle` flag and `path`). Returns `some path` when `depends_on_id`
already reaches `task_id` through the existing edge set, `none` otherwise;
the fuel bound exceeds the length of any simple path. -/
def detect_circular_dependency (s : State) (taskId dependsOnId : Nat) :
    Option (List Nat) :=
  dfsPath s.edges taskId (s.edges.length + 1) [] dependsOnId

/-- Outcome of `TaskViewSet.add_dependency` (views.py lines 71-135). -/
inductive AddResult where
  | added
  | taskNotFound
  | selfDependency
  | duplicateEdge
  | cycleDetected (path : List Nat)
deriving DecidableEq, Repr

/-- `TaskViewSet.add_dependency` (views.py lines 71-135): self-dependency
check, duplicate check, cycle check, then the edge insert —
`TaskDependency.save` (models.py lines 72-79) re-derives the dependent's
status right after the insert. Error responses return before any write. -/
def add_dependency (s : State) (tid dependsOnId : Nat) : State × AddResult :=
  match s.tasks tid with
  | none => (s, AddResult.taskNotFound)
  | some _ =>
    -- Check if task is trying to depend on itself
    if tid = dependsOnId then (s, AddResult.selfDependency)
    -- Check if dependency already exists
    else if (tid, dependsOnId) ∈ s.edges then (s, AddResult.duplicateEdge)
    else
      -- Check for circular dependency
      match detect_circular_dependency s tid dependsOnId with
      | some path => (s, AddResult.cycleDetected path)
      | none =>
        match s.tasks dependsOnId with
        | none => (s, AddResult.taskNotFound)
        | some _ =>
          let s1 : State := { s with edges := s.edges ++ [(tid, dependsOnId)] }
          ((update_status_from_dependencies s1 tid).1, AddResult.added)

/-- Outcome of `TaskViewSet.destroy` (views.py lines 45-69). -/
inductive DestroyOutcome where
  | deleted
  | hasDependents (deps : List (Nat × String))
  | notFound
deriving DecidableEq, Repr

/-- `TaskViewSet.destroy` (views.py lines 45-69): refuse with the dependent
`(id, title)` list when any edge has this task as prerequisite; otherwise
delete the task — the database `CASCADE` removes every edge row that
references it. -/
def destroy (s : State) (tid : Nat) : State × DestroyOutcome :=
  match s.tasks tid with
  | none => (s, DestroyOutcome.notFound)
  | some _ =>
    let depEdges := s.edges.filter (fun e => e.2 = tid)
    if depEdges.length > 0 then
      (s, DestroyOutcome.hasDependents
        (depEdges.map (fun e => (e.1, titleOf s e.1))))
    else
      ({ tasks := fun id => if id = tid then none else s.tasks id,
         edges := s.edges.filter (fun e => e.1 ≠ tid ∧ e.2 ≠ tid) },
       DestroyOutcome.deleted)

/-! ### Case analysis of `update_status_from_dependencies` -/

theorem derive_of_none {s : State} {tid : Nat} (h : s.tasks tid = none) :
    update_status_from_dependencies s tid = (s, false) := by
  simp [update_status_from_dependencies, h]

theorem derive_of_noDeps {s : State} {tid : Nat}
    (h : prereqEdges s tid = []) :
    update_status_from_dependencies s tid = (s, false) := by
  unfold update_status_from_dependencies
  cases htk : s.tasks tid with
  | none => rfl
  | some tk => simp [h]

theorem derive_of_completed {s : State} {tid : Nat} {tk : Task}
    (h : s.tasks tid = some tk) (hc : tk.status = Status.completed) :
    update_status_from_dependencies s tid = (s, false) := by
  unfold update_status_from_dependencies
  rw [h]
  by_cases hd : prereqEdges s tid = [] <;> simp [hd, hc]

theorem derive_of_nochange {s : State} {tid : Nat} {tk : Task}
    (h : s.tasks tid = some tk) (hst : tk.status = deriveStatus s tid) :
    update_status_from_dependencies s tid = (s, false) := by
  unfold update_status_from_dependencies
  rw [h]
  by_cases hd : prereqEdges s tid = [] <;> simp [hd, hst]

theorem derive_of_change {s : State} {tid : Nat} {tk : Task}
    (h : s.tasks tid = some tk) (hd : prereqEdges s tid ≠ [])
    (hne : tk.status ≠ deriveStatus s tid)
    (hnc : tk.status ≠ Status.completed) :
    update_status_from_dependencies s tid =
      (setTaskStatus s tid (deriveStatus s tid), true) := by
  unfold update_status_from_dependencies
  rw [h]
  simp [hd, hne, hnc]

theorem derive_false_state {s : State} {tid : Nat}
    (h : (update_status_from_dependencies s tid).2 = false) :
    (update_status_from_dependencies s tid).1 = s := by
  unfold update_status_from_dependencies at h ⊢
  cases htk : s.tasks tid with
  | none => simp
  | some tk =>
    rw [htk] at h
    by_cases hd : prereqEdges s tid = []
    · simp [hd]
    · by_cases hcond : tk.status ≠ deriveStatus s tid ∧ tk.status ≠ Status.completed
      · simp [hd, hcond] at h
      · simp [hd, hcond]

theorem derive_true_inv {s : State} {tid : Nat}
    (h : (update_status_from_dependencies s tid).2 = true) :
    ∃ tk, s.tasks tid = some tk ∧ prereqEdges s tid ≠ [] ∧
      tk.status ≠ deriveStatus s tid ∧ tk.status ≠ Status.completed ∧
      (update_status_from_dependencies s tid).1 =
        setTaskStatus s tid (deriveStatus s tid) := by
  unfold update_status_from_dependencies at h ⊢
  cases htk : s.tasks tid with
  | none => rw [htk] at h; simp at h
  | some tk =>
    rw [htk] at h
    refine ⟨tk, rfl, ?_⟩
    by_cases hd : prereqEdges s tid = []
    · simp [hd] at h
    · by_cases hcond : tk.status ≠ deriveStatus s tid ∧ tk.status ≠ Status.completed
      · exact ⟨hd, hcond.1, hcond.2, by simp [hd, hcond]⟩
      · simp [hd, hcond] at h

/-! ### Effect of a derivation step on the store -/

theorem setTaskStatus_edges (s : State) (tid : Nat) (ns : Status) :
    (setTaskStatus s tid ns).edges = s.edges := rfl

theorem setTaskStatus_tasks_ne {s : State} {tid u : Nat} (ns : Status)
    (h : u ≠ tid) : (setTaskStatus s tid ns).tasks u = s.tasks u := by
  simp [setTaskStatus, h]

theorem setTaskStatus_tasks_self {s : State} {tid : Nat} {tk : Task}
    (ns : Status) (h : s.tasks tid = some tk) :
    (setTaskStatus s tid ns).tasks tid = some { tk with status := ns } := by
  simp [setTaskStatus, h]

theorem derive_edges (s : State) (tid : Nat) :
    (update_status_from_dependencies s tid).1.edges = s.edges := by
  cases hb : (update_status_from_dependencies s tid).2 with
  | false => rw [derive_false_state hb]
  | true =>
    obtain ⟨tk, _, _, _, _, hstate⟩ := derive_true_inv hb
    rw [hstate]
    rfl

theorem derive_tasks_ne {s : State} {tid u : Nat} (h : u ≠ tid) :
    (update_status_from_dependencies s tid).1.tasks u = s.tasks u := by
  cases hb : (update_status_from_dependencies s tid).2 with
  | false => rw [derive_false_state hb]
  | true =>
    obtain ⟨tk, _, _, _, _, hstate⟩ := derive_true_inv hb
    rw [hstate, setTaskStatus_tasks_ne _ h]

theorem deriveStatus_ne_completed (s : State) (tid : Nat) :
    deriveStatus s tid ≠ Status.completed := by
  unfold deriveStatus
  by_cases h : (prereqEdges s tid).all (fun e => isCompleted s e.2) <;>
    simp [h]

theorem deriveStatus_ne_in_progress (s : State) (tid : Nat) :
    deriveStatus s tid ≠ Status.in_progress := by
  unfold deriveStatus
  by_cases h : (prereqEdges s tid).all (fun e => isCompleted s e.2) <;>
    simp [h]

theorem derive_isCompleted (s : State) (tid v : Nat) :
    isCompleted (update_status_from_dependencies s tid).1 v =
      isCompleted s v := by
  cases hb : (update_status_from_dependencies s tid).2 with
  | false => rw [derive_false_state hb]
  | true =>
    obtain ⟨tk, htk, _, _, hnc, hstate⟩ := derive_true_inv hb
    rw [hstate]
    by_cases hv : v = tid
    · subst hv
      simp [isCompleted, statusOf, setTaskStatus_tasks_self _ htk, htk,
        deriveStatus_ne_completed s v, hnc]
    · simp [isCompleted, statusOf, setTaskStatus_tasks_ne _ hv]

theorem derive_completed_record {s : State} {v : Nat} {tk : Task}
    (u : Nat) (h : s.tasks v = some tk) (hc : tk.status = Status.completed) :
    (update_status_from_dependencies s u).1.tasks v = some tk := by
  by_cases hv : v = u
  · subst hv
    rw [derive_of_completed h hc]
    exact h
  · rw [derive_tasks_ne hv, h]

theorem derive_statusOf_true {s : State} {tid : Nat}
    (h : (update_status_from_dependencies s tid).2 = true) :
    statusOf (update_status_from_dependencies s tid).1 tid =
      some (deriveStatus s tid) := by
  obtain ⟨tk, htk, _, _, _, hstate⟩ := derive_true_inv h
  rw [hstate]
  simp [statusOf, setTaskStatus_tasks_self _ htk]

/-! ### The derivation decision depends only on the task's own record and
the completedness of its direct prerequisites -/

theorem list_all_congr {α : Type} {l : List α} {f g : α → Bool}
    (h : ∀ a ∈ l, f a = g a) : l.all f = l.all g := by
  induction l with
  | nil => rfl
  | cons a as ih =>
    simp only [List.all_cons]
    rw [h a (List.mem_cons_self a as), ih fun x hx => h x (List.mem_cons_of_mem a hx)]

theorem prereqEdges_congr {s₁ s₂ : State} (u : Nat)
    (he : s₁.edges = s₂.edges) : prereqEdges s₁ u = prereqEdges s₂ u := by
  rw [prereqEdges, prereqEdges, he]

theorem deriveStatus_congr {s₁ s₂ : State} {u : Nat}
    (he : s₁.edges = s₂.edges)
    (hc : ∀ e ∈ prereqEdges s₁ u, isCompleted s₁ e.2 = isCompleted s₂ e.2) :
    deriveStatus s₁ u = deriveStatus s₂ u := by
  rw [deriveStatus, deriveStatus, ← prereqEdges_congr u he, list_all_congr hc]

theorem derive_flag_congr {s₁ s₂ : State} {u : Nat}
    (he : s₁.edges = s₂.edges) (ht : s₁.tasks u = s₂.tasks u)
    (hc : ∀ e ∈ prereqEdges s₁ u, isCompleted s₁ e.2 = isCompleted s₂ e.2) :
    (update_status_from_dependencies s₁ u).2 =
      (update_status_from_dependencies s₂ u).2 := by
  unfold update_status_from_dependencies
  rw [← ht, ← prereqEdges_congr u he, ← deriveStatus_congr he hc]
  cases s₁.tasks u with
  | none => rfl
  | some tk =>
    by_cases hd : prereqEdges s₁ u = []
    · simp [hd]
    · by_cases hcond : tk.status ≠ deriveStatus s₁ u ∧ tk.status ≠ Status.completed <;>
        simp [hd, hcond]

/-! ### Idempotence of one derivation step -/

theorem derive_derive_false (s : State) (tid : Nat) :
    (update_status_from_dependencies
      (update_status_from_dependencies s tid).1 tid).2 = false := by
  cases hb : (update_status_from_dependencies s tid).2 with
  | false => rw [derive_false_state hb]; exact hb
  | true =>
    obtain ⟨tk, htk, hd, _, _, hstate⟩ := derive_true_inv hb
    rw [hstate]
    have hcomp : ∀ e ∈ prereqEdges (setTaskStatus s tid (deriveStatus s tid)) tid,
        isCompleted (setTaskStatus s tid (deriveStatus s tid)) e.2 = isCompleted s e.2 := by
      intro e _
      have := derive_isCompleted s tid e.2
      rw [hstate] at this
      exact this
    have hds : deriveStatus (setTaskStatus s tid (deriveStatus s tid)) tid =
        deriveStatus s tid :=
      deriveStatus_congr (setTaskStatus_edges s tid _) hcomp
    have hnc2 := derive_of_nochange (setTaskStatus_tasks_self (deriveStatus s tid) htk)
      (by simp [hds])
    rw [hnc2]

/-! ### The sequential derivation pass over a list of dependents -/

theorem foldDerive_nil (s : State) : foldDerive s [] = s := rfl

theorem foldDerive_cons (s : State) (d : Nat) (ds : List Nat) :
    foldDerive s (d :: ds) =
      foldDerive (update_status_from_dependencies s d).1 ds := rfl

theorem foldDerive_edges (s : State) (ds : List Nat) :
    (foldDerive s ds).edges = s.edges := by
  induction ds generalizing s with
  | nil => rfl
  | cons d ds ih => rw [foldDerive_cons, ih, derive_edges]

theorem foldDerive_isCompleted (s : State) (ds : List Nat) (v : Nat) :
    isCompleted (foldDerive s ds) v = isCompleted s v := by
  induction ds generalizing s with
  | nil => rfl
  | cons d ds ih => rw [foldDerive_cons, ih, derive_isCompleted]

theorem foldDerive_tasks_not_mem {ds : List Nat} {u : Nat} (s : State)
    (h : u ∉ ds) : (foldDerive s ds).tasks u = s.tasks u := by
  induction ds generalizing s with
  | nil => rfl
  | cons d ds ih =>
    rw [foldDerive_cons, ih _ (fun hm => h (List.mem_cons_of_mem d hm)),
      derive_tasks_ne (fun he => h (by rw [he]; exact List.mem_cons_self d ds))]

theorem foldDerive_completed_record {s : State} {v : Nat} {tk : Task}
    (ds : List Nat) (h : s.tasks v = some tk)
    (hc : tk.status = Status.completed) :
    (foldDerive s ds).tasks v = some tk := by
  induction ds generalizing s with
  | nil => exact h
  | cons d ds ih =>
    rw [foldDerive_cons]
    exact ih (derive_completed_record d h hc)

theorem foldDerive_stable_mem {ds : List Nat} {u : Nat} (s : State)
    (hnd : ds.Nodup) (hm : u ∈ ds) :
    (update_status_from_dependencies (foldDerive s ds) u).2 = false := by
  induction ds generalizing s with
  | nil => cases hm
  | cons d ds ih =>
    rw [foldDerive_cons]
    rcases List.mem_cons.mp hm with he | hm2
    · subst he
      have hu : u ∉ ds := (List.nodup_cons.mp hnd).1
      have hflag := derive_derive_false s u
      have hagree : ∀ e ∈ prereqEdges (update_status_from_dependencies s u).1 u,
          isCompleted (update_status_from_dependencies s u).1 e.2 =
            isCompleted (foldDerive (update_status_from_dependencies s u).1 ds) e.2 := by
        intro e _
        rw [foldDerive_isCompleted]
      rw [← derive_flag_congr (foldDerive_edges _ ds).symm
        (foldDerive_tasks_not_mem _ hu).symm hagree]
      exact hflag
    · exact ih _ (List.nodup_cons.mp hnd).2 hm2

theorem foldDerive_stable_not_mem {ds : List Nat} {u : Nat} {s : State}
    (hu : u ∉ ds) (h : (update_status_from_dependencies s u).2 = false) :
    (update_status_from_dependencies (foldDerive s ds) u).2 = false := by
  have hagree : ∀ e ∈ prereqEdges s u,
      isCompleted s e.2 = isCompleted (foldDerive s ds) e.2 := by
    intro e _
    rw [foldDerive_isCompleted]
  rw [← derive_flag_congr (foldDerive_edges s ds).symm
    (foldDerive_tasks_not_mem s hu).symm (by
      intro e hm
      rw [foldDerive_isCompleted])]
  exact h

theorem foldDerive_id {ds : List Nat} {s : State}
    (h : ∀ d ∈ ds, (update_status_from_dependencies s d).2 = false) :
    foldDerive s ds = s := by
  induction ds with
  | nil => rfl
  | cons d ds ih =>
    rw [foldDerive_cons, derive_false_state (h d (List.mem_cons_self d ds))]
    exact ih fun x hx => h x (List.mem_cons_of_mem d hx)

/-! ### The cascade: the recursive call is dead, so a cascade pass is
exactly one sequential derivation pass over the direct dependents -/

theorem cascadeAux_dead {s : State} {d : Nat}
    (h : (update_status_from_dependencies s d).2 = true) (fuel : Nat) :
    cascadeAux fuel (update_status_from_dependencies s d).1 d =
      ((update_status_from_dependencies s d).1, []) := by
  obtain ⟨tk, htk, _, _, _, hstate⟩ := derive_true_inv h
  cases fuel with
  | zero => rfl
  | succ fuel =>
    have htk2 : (update_status_from_dependencies s d).1.tasks d =
        some { tk with status := deriveStatus s d } := by
      rw [hstate]
      exact setTaskStatus_tasks_self _ htk
    unfold cascadeAux
    rw [htk2]
    simp [deriveStatus_ne_completed s d]

theorem cascade_foldl_spec (fuel : Nat) (ds : List Nat) :
    ∀ (σ : State) (tr : List Nat),
    ds.foldl
      (fun acc dep =>
        let r := update_status_from_dependencies acc.1 dep
        if r.2 then
          let c := cascadeAux fuel r.1 dep
          (c.1, acc.2 ++ [dep] ++ c.2)
        else (r.1, acc.2 ++ [dep]))
      (σ, tr) = (foldDerive σ ds, tr ++ ds) := by
  induction ds with
  | nil => intro σ tr; simp [foldDerive_nil]
  | cons d ds ih =>
    intro σ tr
    rw [List.foldl_cons]
    have hstep :
        (let r := update_status_from_dependencies σ d
        if r.2 then
          let c := cascadeAux fuel r.1 d
          (c.1, tr ++ [d] ++ c.2)
        else (r.1, tr ++ [d])) =
        ((update_status_from_dependencies σ d).1, tr ++ [d]) := by
      cases hb : (update_status_from_dependencies σ d).2 with
      | false => simp [hb]
      | true => simp [hb, cascadeAux_dead hb fuel]
    rw [hstep, ih]
    simp [foldDerive_cons]

theorem cascadeAux_completed {s : State} {tid : Nat} {tk : Task} (fuel : Nat)
    (htk : s.tasks tid = some tk) (hc : tk.status = Status.completed) :
    cascadeAux (fuel + 1) s tid =
      (foldDerive s (dependentsOf s tid), dependentsOf s tid) := by
  unfold cascadeAux
  rw [htk]
  simp only [hc, if_pos rfl]
  rw [cascade_foldl_spec fuel (dependentsOf s tid) s []]
  simp

theorem cascade_completed {s : State} {tid : Nat} {tk : Task}
    (htk : s.tasks tid = some tk) (hc : tk.status = Status.completed) :
    cascade_update_on_completion s tid =
      (foldDerive s (dependentsOf s tid), dependentsOf s tid) :=
  cascadeAux_completed s.edges.length htk hc

theorem cascadeAux_not_completed {s : State} {tid : Nat} (fuel : Nat)
    (h : statusOf s tid ≠ some Status.completed) :
    cascadeAux fuel s tid = (s, []) := by
  cases fuel with
  | zero => rfl
  | succ fuel =>
    unfold cascadeAux
    cases htk : s.tasks tid with
    | none => rfl
    | some tk =>
      have : tk.status ≠ Status.completed := by
        intro he
        exact h (by simp [statusOf, htk, he])
      simp [this]

theorem cascade_not_completed {s : State} {tid : Nat}
    (h : statusOf s tid ≠ some Status.completed) :
    cascade_update_on_completion s tid = (s, []) :=
  cascadeAux_not_completed _ h

theorem dependentsOf_nodup (s : State) (tid : Nat) :
    (dependentsOf s tid).Nodup :=
  List.nodup_dedup _

theorem dependentsOf_congr {s₁ s₂ : State} (tid : Nat)
    (he : s₁.edges = s₂.edges) : dependentsOf s₁ tid = dependentsOf s₂ tid := by
  rw [dependentsOf, dependentsOf, he]

/-! ### Reachability and concrete paths -/

theorem Reach.trans {E : List (Nat × Nat)} {a b c : Nat}
    (h1 : Reach E a b) (h2 : Reach E b c) : Reach E a c := by
  induction h1 with
  | refl => exact h2
  | step he _ ih => exact Reach.step he (ih h2)

theorem path_reach {E : List (Nat × Nat)} {a b : Nat} {l : List Nat}
    (h : IsPathFrom E a b l) : Reach E a b := by
  induction h with
  | single a => exact Reach.refl a
  | cons he _ ih => exact Reach.step he ih

theorem reach_path {E : List (Nat × Nat)} {a b : Nat}
    (h : Reach E a b) : ∃ l, IsPathFrom E a b l := by
  induction h with
  | refl a => exact ⟨[a], IsPathFrom.single a⟩
  | step he _ ih =>
    obtain ⟨l, hl⟩ := ih
    exact ⟨_, IsPathFrom.cons he hl⟩

theorem path_ne_nil {E : List (Nat × Nat)} {a b : Nat} {l : List Nat}
    (h : IsPathFrom E a b l) : l ≠ [] := by
  cases h <;> simp

theorem path_head {E : List (Nat × Nat)} {a b : Nat} {l : List Nat}
    (h : IsPathFrom E a b l) : l.head? = some a := by
  cases h <;> rfl

/-- A path visiting `a` contains a path from `a` onward: the suffix of the
visit list starting at `a`. -/
theorem path_suffix {E : List (Nat × Nat)} {x c a : Nat} {m : List Nat}
    (h : IsPathFrom E x c m) (hm : a ∈ m) :
    ∃ m2, IsPathFrom E a c m2 ∧ m2.IsSuffix m := by
  induction h with
  | single y =>
    rw [List.mem_singleton] at hm
    subst hm
    exact ⟨[a], IsPathFrom.single a, List.suffix_refl _⟩
  | cons he hp ih =>
    rename_i y z w l
    rcases List.mem_cons.mp hm with he2 | hm2
    · subst he2
      exact ⟨_, IsPathFrom.cons he hp, List.suffix_refl _⟩
    · obtain ⟨m2, hp2, hs⟩ := ih hm2
      exact ⟨m2, hp2, hs.trans (List.suffix_cons y l)⟩

/-- Any path can be thinned to a duplicate-free path with the same
endpoints, drawn from the same visits. -/
theorem path_nodup {E : List (Nat × Nat)} {a b : Nat} {l : List Nat}
    (h : IsPathFrom E a b l) :
    ∃ m, IsPathFrom E a b m ∧ m.Nodup ∧ m ⊆ l := by
  induction h with
  | single a =>
    exact ⟨[a], IsPathFrom.single a, List.nodup_singleton a, fun x hx => hx⟩
  | cons he hp ih =>
    rename_i y z w l
    obtain ⟨m0, hp0, hnd0, hsub0⟩ := ih
    by_cases hy : y ∈ m0
    · obtain ⟨m2, hp2, hs⟩ := path_suffix hp0 hy
      refine ⟨m2, hp2, hnd0.sublist hs.sublist, ?_⟩
      exact fun x hx => List.mem_cons_of_mem y (hsub0 (hs.sublist.subset hx))
    · refine ⟨y :: m0, IsPathFrom.cons ?_ hp0, List.nodup_cons.mpr ⟨hy, hnd0⟩, ?_⟩
      · have := path_head hp0
        cases m0 with
        | nil => exact absurd rfl (path_ne_nil hp0)
        | cons m0h m0t =>
          cases hp0 with
          | single _ => exact he
          | cons he2 _ => exact he
      · intro x hx
        rcases List.mem_cons.mp hx with he2 | hm2
        · rw [he2]; exact List.mem_cons_self y l
        · exact List.mem_cons_of_mem y (hsub0 hm2)

/-- The edges a path uses, read off its visit list. -/
theorem path_edge_list {E : List (Nat × Nat)} {a b : Nat} {l : List Nat}
    (h : IsPathFrom E a b l) :
    ∃ es : List (Nat × Nat), (∀ e ∈ es, e ∈ E) ∧
      es.map Prod.fst = l.dropLast ∧ es.length + 1 = l.length := by
  induction h with
  | single a => exact ⟨[], by simp, by simp, by simp⟩
  | cons he hp ih =>
    rename_i y z w l
    obtain ⟨es, hes, hmap, hlen⟩ := ih
    refine ⟨(y, z) :: es, ?_, ?_, by simp [← hlen]⟩
    · intro e hm
      rcases List.mem_cons.mp hm with he2 | hm2
      · rw [he2]; exact he
      · exact hes e hm2
    · cases hl : l with
      | nil => exact absurd hl (path_ne_nil hp)
      | cons lh lt =>
        subst hl
        simp only [List.map_cons, List.dropLast_cons₂]
        rw [hmap]

/-- A duplicate-free path has at most one more node than the edge list has
entries. -/
theorem path_nodup_length {E : List (Nat × Nat)} {a b : Nat} {l : List Nat}
    (h : IsPathFrom E a b l) (hnd : l.Nodup) : l.length ≤ E.length + 1 := by
  obtain ⟨es, hes, hmap, hlen⟩ := path_edge_list h
  have hnd2 : es.Nodup := by
    have : (es.map Prod.fst).Nodup := hmap ▸ hnd.sublist (List.dropLast_sublist l)
    exact this.of_map Prod.fst
  have hsub : es ⊆ E := fun e he => hes e he
  have := (List.subperm_of_subset hnd2 hsub).length_le
  omega

/-! ### Soundness and completeness of the depth-first search -/

theorem firstSome_eq_some {f : Nat → Option (List Nat)} {xs : List Nat}
    {r : List Nat} (h : firstSome f xs = some r) : ∃ x ∈ xs, f x = some r := by
  induction xs with
  | nil => simp [firstSome] at h
  | cons x xs ih =>
    unfold firstSome at h
    cases hf : f x with
    | some r2 =>
      rw [hf] at h
      exact ⟨x, List.mem_cons_self x xs, by rw [hf, ← h]⟩
    | none =>
      rw [hf] at h
      obtain ⟨y, hy, hfy⟩ := ih h
      exact ⟨y, List.mem_cons_of_mem x hy, hfy⟩

theorem firstSome_isSome {f : Nat → Option (List Nat)} {xs : List Nat}
    (h : ∃ x ∈ xs, (f x).isSome) : (firstSome f xs).isSome := by
  induction xs with
  | nil => simp at h
  | cons x xs ih =>
    unfold firstSome
    cases hf : f x with
    | some r2 => rfl
    | none =>
      obtain ⟨y, hy, hfy⟩ := h
      rcases List.mem_cons.mp hy with he | hm
      · rw [he, hf] at hfy
        simp at hfy
      · exact ih ⟨y, hm, hfy⟩

theorem mem_nextIds {E : List (Nat × Nat)} {a b : Nat} :
    b ∈ nextIds E a ↔ (a, b) ∈ E := by
  constructor
  · intro h
    obtain ⟨e, he, hb⟩ := List.mem_map.mp h
    obtain ⟨hmem, hfst⟩ := List.mem_filter.mp he
    have : e = (a, b) := by
      cases e
      simp at hfst hb
      simp [hfst, hb]
    exact this ▸ hmem
  · intro h
    exact List.mem_map.mpr ⟨(a, b),
      List.mem_filter.mpr ⟨h, by simp⟩, rfl⟩

theorem dfs_sound {E : List (Nat × Nat)} {target : Nat} :
    ∀ (fuel : Nat) (visited : List Nat) (node : Nat) (l : List Nat),
    dfsPath E target fuel visited node = some l → IsPathFrom E node target l := by
  intro fuel
  induction fuel with
  | zero => intro visited node l h; simp [dfsPath] at h
  | succ fuel ih =>
    intro visited node l h
    unfold dfsPath at h
    by_cases ht : node = target
    · rw [if_pos ht] at h
      cases h
      rw [ht]
      exact ht ▸ IsPathFrom.single node
    · rw [if_neg ht] at h
      by_cases hv : node ∈ visited
      · rw [if_pos hv] at h; cases h
      · rw [if_neg hv] at h
        cases hfs : firstSome (fun nx => dfsPath E target fuel (node :: visited) nx)
            (nextIds E node) with
        | none => rw [hfs] at h; cases h
        | some rest =>
          rw [hfs] at h
          cases h
          obtain ⟨nx, hnx, hdfs⟩ := firstSome_eq_some hfs
          exact IsPathFrom.cons (mem_nextIds.mp hnx) (ih _ nx rest hdfs)

theorem dfs_complete {E : List (Nat × Nat)} {node target : Nat} {l : List Nat}
    (h : IsPathFrom E node target l) :
    ∀ (fuel : Nat) (visited : List Nat), l.Nodup → (∀ x ∈ l, x ∉ visited) →
    l.length ≤ fuel → (dfsPath E target fuel visited node).isSome := by
  induction h with
  | single a =>
    intro fuel visited _ _ hlen
    cases fuel with
    | zero => simp at hlen
    | succ fuel =>
      unfold dfsPath
      rw [if_pos rfl]
      rfl
  | cons he hp ih =>
    rename_i y z w l
    intro fuel visited hnd hvis hlen
    cases fuel with
    | zero => simp at hlen
    | succ fuel =>
      unfold dfsPath
      by_cases ht : y = w
      · rw [if_pos ht]; rfl
      · rw [if_neg ht, if_neg (hvis y (List.mem_cons_self y l))]
        have hchild : (dfsPath E w fuel (y :: visited) z).isSome := by
          apply ih fuel (y :: visited) (List.nodup_cons.mp hnd).2
          · intro x hx hmem
            rcases List.mem_cons.mp hmem with he2 | hm2
            · exact (List.nodup_cons.mp hnd).1 (he2 ▸ hx)
            · exact hvis x (List.mem_cons_of_mem y hx) hm2
          · have := List.length_cons y l ▸ hlen
            omega
        have hfs := firstSome_isSome ⟨z, mem_nextIds.mpr he, hchild⟩
        cases hres : firstSome (fun nx => dfsPath E w fuel (y :: visited) nx)
            (nextIds E y) with
        | none => rw [hres] at hfs; simp at hfs
        | some rest => rfl

/-! ### Correctness of the cycle detector -/

theorem detect_sound {s : State} {taskId dependsOnId : Nat} {path : List Nat}
    (h : detect_circular_dependency s taskId dependsOnId = some path) :
    IsPathFrom s.edges dependsOnId taskId path :=
  dfs_sound _ _ _ _ h

theorem detect_of_reach {s : State} {taskId dependsOnId : Nat}
    (h : Reach s.edges dependsOnId taskId) :
    ∃ path, detect_circular_dependency s taskId dependsOnId = some path := by
  obtain ⟨l, hl⟩ := reach_path h
  obtain ⟨m, hm, hnd, _⟩ := path_nodup hl
  have hsome := dfs_complete hm (s.edges.length + 1) [] hnd (by simp)
    (path_nodup_length hm hnd)
  unfold detect_circular_dependency
  cases hres : dfsPath s.edges taskId (s.edges.length + 1) [] dependsOnId with
  | none => rw [hres] at hsome; simp at hsome
  | some path => exact ⟨path, rfl⟩

theorem detect_none_not_reach {s : State} {taskId dependsOnId : Nat}
    (h : detect_circular_dependency s taskId dependsOnId = none) :
    ¬ Reach s.edges dependsOnId taskId := by
  intro hr
  obtain ⟨path, hp⟩ := detect_of_reach hr
  rw [h] at hp
  cases hp

/-! ### Inserting a non-cycle-closing edge preserves acyclicity -/

theorem reach_append_elim {E : List (Nat × Nat)} {d p x y : Nat}
    (hnr : ¬ Reach E p d) (h : Reach (E ++ [(d, p)]) x y) :
    Reach E x y ∨ (Reach E x d ∧ Reach E p y) := by
  induction h with
  | refl a => exact Or.inl (Reach.refl a)
  | step he _ ih =>
    rename_i a b c
    rcases List.mem_append.mp he with hE | hnew
    · rcases ih with h1 | ⟨h2, h3⟩
      · exact Or.inl (Reach.step hE h1)
      · exact Or.inr ⟨Reach.step hE h2, h3⟩
    · rw [List.mem_singleton, Prod.mk.injEq] at hnew
      obtain ⟨ha, hb⟩ := hnew
      rcases ih with h1 | ⟨h2, _⟩
      · rw [hb] at h1
        refine Or.inr ⟨?_, h1⟩
        rw [ha]
        exact Reach.refl d
      · rw [hb] at h2
        exact absurd h2 hnr

theorem acyclic_insert {E : List (Nat × Nat)} {d p : Nat}
    (hac : Acyclic E) (hnr : ¬ Reach E p d) : Acyclic (E ++ [(d, p)]) := by
  intro a b hmem hreach
  rcases List.mem_append.mp hmem with hE | hnew
  · rcases reach_append_elim hnr hreach with h1 | ⟨h2, h3⟩
    · exact hac a b hE h1
    · exact hnr (h3.trans (Reach.step hE h2))
  · rw [List.mem_singleton, Prod.mk.injEq] at hnew
    obtain ⟨ha, hb⟩ := hnew
    rcases reach_append_elim hnr hreach with h1 | ⟨_, h3⟩
    · rw [ha, hb] at h1
      exact hnr h1
    · rw [ha] at h3
      exact hnr h3

/-! ### `add_dependency` preserves acyclicity -/

theorem add_dependency_acyclic {s : State} {tid dependsOnId : Nat}
    (hac : Acyclic s.edges) :
    Acyclic ((add_dependency s tid dependsOnId).1).edges := by
  unfold add_dependency
  cases htk : s.tasks tid with
  | none => exact hac
  | some tk =>
    by_cases hself : tid = dependsOnId
    · simp only [if_pos hself]
      exact hac
    · rw [if_neg hself]
      by_cases hdup : (tid, dependsOnId) ∈ s.edges
      · simp only [if_pos hdup]
        exact hac
      · rw [if_neg hdup]
        cases hdet : detect_circular_dependency s tid dependsOnId with
        | some path => exact hac
        | none =>
          cases hdep : s.tasks dependsOnId with
          | none => exact hac
          | some tk2 =>
            have hednew :
                ((update_status_from_dependencies
                  { s with edges := s.edges ++ [(tid, dependsOnId)] } tid).1).edges =
                s.edges ++ [(tid, dependsOnId)] := derive_edges _ _
            simp only [hednew]
            exact acyclic_insert hac (detect_none_not_reach hdet)

/-! ### Concrete stores used to instantiate the claims -/

/-- Two tasks, task 2 depending on task 1. -/
def stateA : State :=
  { tasks := fun id =>
      if id = 1 then some ⟨"build", Status.pending⟩
      else if id = 2 then some ⟨"test", Status.pending⟩
      else none,
    edges := [(2, 1)] }

/-- An in-progress task 1 depending on a pending task 2. -/
def stateB : State :=
  { tasks := fun id =>
      if id = 1 then some ⟨"impl", Status.in_progress⟩
      else if id = 2 then some ⟨"spec", Status.pending⟩
      else none,
    edges := [(1, 2)] }

/-- A three-task chain: 2 depends on 1, 3 depends on 2. -/
def stateC : State :=
  { tasks := fun id =>
      if id = 1 then some ⟨"one", Status.pending⟩
      else if id = 2 then some ⟨"two", Status.blocked⟩
      else if id = 3 then some ⟨"three", Status.blocked⟩
      else none,
    edges := [(2, 1), (3, 2)] }

/-- A completed task 1 with a blocked dependent 2. -/
def stateD : State :=
  { tasks := fun id =>
      if id = 1 then some ⟨"done", Status.completed⟩
      else if id = 2 then some ⟨"next", Status.blocked⟩
      else none,
    edges := [(2, 1)] }

theorem stateA_acyclic : Acyclic stateA.edges := by
  intro a b hmem hr
  simp only [stateA, List.mem_singleton, Prod.mk.injEq] at hmem
  obtain ⟨ha, hb⟩ := hmem
  subst ha
  subst hb
  cases hr with
  | step hmem2 hr2 =>
    simp only [stateA, List.mem_singleton, Prod.mk.injEq] at hmem2
    exact absurd hmem2.1 (by decide)

/-! ### The claims -/

theorem foldAdd_acyclic (ops : List (Nat × Nat)) :
    ∀ s : State, Acyclic s.edges →
    Acyclic ((ops.foldl (fun st op => (add_dependency st op.1 op.2).1) s).edges) := by
  induction ops with
  | nil => intro s hac; exact hac
  | cons op ops ih =>
    intro s hac
    rw [List.foldl_cons]
    exact ih _ (add_dependency_acyclic hac)

/-- Claim C1: starting from an acyclic edge set, any sequence of
AddDependency operations leaves the edge set acyclic (failed calls change
nothing, successful ones never close a cycle), and a call whose new edge
would close a cycle — the proposed prerequisite already reaches the
proposed dependent — is rejected with CycleDetected carrying a real path
from prerequisite to dependent, the store unchanged. -/
theorem c1_add_dependency_acyclicity (s : State) (hac : Acyclic s.edges) :
    (∀ ops : List (Nat × Nat),
      Acyclic ((ops.foldl (fun st op => (add_dependency st op.1 op.2).1) s).edges))
    ∧ (∀ d p tk, s.tasks d = some tk → d ≠ p → Reach s.edges p d →
        ∃ path, add_dependency s d p = (s, AddResult.cycleDetected path) ∧
          IsPathFrom s.edges p d path) := by
  constructor
  · intro ops
    exact foldAdd_acyclic ops s hac
  · intro d p tk htk hdp hreach
    have hdup : (d, p) ∉ s.edges := fun hmem => hac d p hmem hreach
    obtain ⟨path, hdet⟩ := detect_of_reach hreach
    refine ⟨path, ?_, detect_sound hdet⟩
    unfold add_dependency
    rw [htk, if_neg hdp, if_neg hdup, hdet]

/-- Witness for C1 on a concrete store: with the edge 2→1 present, the
fold of one AddDependency stays acyclic, and AddDependency(1, 2) is
rejected as a cycle with a genuine path from 2 back to 1. -/
theorem c1_add_dependency_acyclicity_witness :
    Acyclic (([((1 : Nat), (2 : Nat))].foldl
      (fun st op => (add_dependency st op.1 op.2).1) stateA).edges)
    ∧ ∃ path, add_dependency stateA 1 2 = (stateA, AddResult.cycleDetected path) ∧
        IsPathFrom stateA.edges 2 1 path :=
  ⟨(c1_add_dependency_acyclicity stateA stateA_acyclic).1 [(1, 2)],
    (c1_add_dependency_acyclicity stateA stateA_acyclic).2 1 2
      ⟨"build", Status.pending⟩ (by decide) (by decide)
      (Reach.step (by decide) (Reach.refl 1))⟩

/-- Claim C2: for a task with prerequisites whose status is not Completed,
derivation ends with status Blocked iff some direct prerequisite is not
Completed, Pending iff all are Completed, and the function returns true
exactly when the persisted status changed. -/
theorem c2_derivation_correctness (s : State) (t : Nat) (tk : Task)
    (htk : s.tasks t = some tk) (hnc : tk.status ≠ Status.completed)
    (hd : prereqEdges s t ≠ []) :
    (statusOf (update_status_from_dependencies s t).1 t = some Status.blocked ↔
      ∃ e ∈ prereqEdges s t, statusOf s e.2 ≠ some Status.completed)
    ∧ (statusOf (update_status_from_dependencies s t).1 t = some Status.pending ↔
      ∀ e ∈ prereqEdges s t, statusOf s e.2 = some Status.completed)
    ∧ ((update_status_from_dependencies s t).2 = true ↔
      statusOf (update_status_from_dependencies s t).1 t ≠ some tk.status) := by
  have hall : (prereqEdges s t).all (fun e => isCompleted s e.2) = true ↔
      ∀ e ∈ prereqEdges s t, statusOf s e.2 = some Status.completed := by
    rw [List.all_eq_true]
    constructor
    · intro h e he
      exact of_decide_eq_true (h e he)
    · intro h e he
      exact decide_eq_true (h e he)
  have hfin : statusOf (update_status_from_dependencies s t).1 t =
      some (deriveStatus s t) := by
    by_cases hch : tk.status = deriveStatus s t
    · rw [derive_of_nochange htk hch]
      simp [statusOf, htk, ← hch]
    · rw [derive_of_change htk hd hch hnc]
      simp [statusOf, setTaskStatus_tasks_self _ htk]
  have hflag : (update_status_from_dependencies s t).2 = true ↔
      tk.status ≠ deriveStatus s t := by
    by_cases hch : tk.status = deriveStatus s t
    · rw [derive_of_nochange htk hch]
      simp [hch]
    · rw [derive_of_change htk hd hch hnc]
      simp [hch]
  have hdsp : deriveStatus s t = Status.pending ↔
      ∀ e ∈ prereqEdges s t, statusOf s e.2 = some Status.completed := by
    by_cases hb : ((prereqEdges s t).all fun e => isCompleted s e.2) = true
    · unfold deriveStatus
      rw [if_pos hb]
      simpa using hall.mp hb
    · unfold deriveStatus
      rw [if_neg hb]
      constructor
      · intro h
        exact absurd h (by decide)
      · intro hforall
        exact absurd (hall.mpr hforall) hb
  have hdsb : deriveStatus s t = Status.blocked ↔
      ∃ e ∈ prereqEdges s t, statusOf s e.2 ≠ some Status.completed := by
    by_cases hb : ((prereqEdges s t).all fun e => isCompleted s e.2) = true
    · unfold deriveStatus
      rw [if_pos hb]
      constructor
      · intro h
        exact absurd h (by decide)
      · rintro ⟨e, he, hne⟩
        exact absurd (hall.mp hb e he) hne
    · unfold deriveStatus
      rw [if_neg hb]
      constructor
      · intro _
        by_contra hne
        push_neg at hne
        exact hb (hall.mpr hne)
      · intro _
        rfl
  refine ⟨?_, ?_, ?_⟩
  · rw [hfin, Option.some_inj]
    exact hdsb
  · rw [hfin, Option.some_inj]
    exact hdsp
  · rw [hflag, hfin]
    constructor
    · intro h h2
      exact h (Option.some_inj.mp h2).symm
    · intro h h2
      exact h (by rw [h2])

/-- Witness for C2: task 1 of `stateB` is in progress with prerequisite 2
pending; derivation yields Blocked because of prerequisite 2, and reports
a change. -/
theorem c2_derivation_correctness_witness :
    (statusOf (update_status_from_dependencies stateB 1).1 1 = some Status.blocked ↔
      ∃ e ∈ prereqEdges stateB 1, statusOf stateB e.2 ≠ some Status.completed)
    ∧ (statusOf (update_status_from_dependencies stateB 1).1 1 = some Status.pending ↔
      ∀ e ∈ prereqEdges stateB 1, statusOf stateB e.2 = some Status.completed)
    ∧ ((update_status_from_dependencies stateB 1).2 = true ↔
      statusOf (update_status_from_dependencies stateB 1).1 1 ≠
        some Status.in_progress) :=
  c2_derivation_correctness stateB 1 ⟨"impl", Status.in_progress⟩
    (by decide) (by decide) (by decide)

/-- Claim C7: AddDependency(X, X) on an existing task X fails with the
self-dependency error and leaves the store untouched. -/
theorem c7_self_dependency_rejected (s : State) (x : Nat) (tk : Task)
    (htk : s.tasks x = some tk) :
    add_dependency s x x = (s, AddResult.selfDependency) := by
  unfold add_dependency
  rw [htk]
  simp

/-- Witness for C7 at task 1 of `stateB`. -/
theorem c7_self_dependency_rejected_witness :
    add_dependency stateB 1 1 = (stateB, AddResult.selfDependency) :=
  c7_self_dependency_rejected stateB 1 ⟨"impl", Status.in_progress⟩ (by decide)

/-- Claim C9: a task with zero prerequisite edges is never auto-derived:
the call changes nothing and returns false. -/
theorem c9_no_prereqs_no_derivation (s : State) (t : Nat)
    (hd : prereqEdges s t = []) :
    update_status_from_dependencies s t = (s, false) :=
  derive_of_noDeps hd

/-- Witness for C9 at task 2 of `stateB`, which has no prerequisites. -/
theorem c9_no_prereqs_no_derivation_witness :
    update_status_from_dependencies stateB 2 = (stateB, false) :=
  c9_no_prereqs_no_derivation stateB 2 (by decide)

/-- A cascade pass never rewrites the record of a completed task. -/
theorem cascade_completed_record {s : State} {v : Nat} {tk : Task} (u : Nat)
    (h : s.tasks v = some tk) (hc : tk.status = Status.completed) :
    (cascade_update_on_completion s u).1.tasks v = some tk := by
  by_cases hcu : statusOf s u = some Status.completed
  · unfold statusOf at hcu
    cases htku : s.tasks u with
    | none => rw [htku] at hcu; simp at hcu
    | some tku =>
      rw [htku] at hcu
      simp only [Option.map_some', Option.some_inj] at hcu
      rw [cascade_completed htku hcu]
      exact foldDerive_completed_record _ h hc
  · rw [cascade_not_completed hcu]
    exact h

/-- Claim C3 counterexample: in the chain 1 ← 2 ← 3 of `stateC`, task 3 is
reachable from task 1 along prerequisite-to-dependent edges, yet setting
task 1 to Completed never re-derives task 3 — its derivation count in the
cascade trace is 0, not 1. The recursive cascade call is dead (see C10),
so only direct dependents are ever re-derived. -/
theorem c3_cascade_counterexample :
    Reach (flipEdges stateC.edges) 1 3
    ∧ (set_status stateC 1 Status.completed).2.count 3 = 0 := by
  constructor
  · exact Reach.step (b := 2) (by decide) (Reach.step (b := 3) (by decide) (Reach.refl 3))
  · decide

/-- Claim C3 (amended): after a task is Completed, the cascade re-derives
exactly the direct dependents, each exactly once (the trace is the
duplicate-free direct-dependent list); tasks outside that list are not
touched; and afterwards derivation is a no-op both on every direct
dependent and on every task that was already consistent before — so no
task in the forward closure is left stale when the pre-state was
consistent. -/
theorem c3_cascade_direct_dependents (s : State) (t : Nat) (tk : Task)
    (htk : s.tasks t = some tk) (hc : tk.status = Status.completed) :
    (cascade_update_on_completion s t).2 = dependentsOf s t
    ∧ (dependentsOf s t).Nodup
    ∧ (∀ u, u ∉ dependentsOf s t →
        (cascade_update_on_completion s t).1.tasks u = s.tasks u)
    ∧ (∀ u, u ∈ dependentsOf s t ∨ (update_status_from_dependencies s u).2 = false →
        (update_status_from_dependencies
          (cascade_update_on_completion s t).1 u).2 = false) := by
  have hcc := cascade_completed htk hc
  refine ⟨by rw [hcc], dependentsOf_nodup s t, ?_, ?_⟩
  · intro u hu
    rw [hcc]
    exact foldDerive_tasks_not_mem s hu
  · intro u hu
    rw [hcc]
    by_cases hm : u ∈ dependentsOf s t
    · exact foldDerive_stable_mem s (dependentsOf_nodup s t) hm
    · rcases hu with hm2 | hf
      · exact absurd hm2 hm
      · exact foldDerive_stable_not_mem hm hf

/-- Witness for the amended C3 on `stateD`: completing task 1 derives
exactly its direct dependent 2 once, leaves the unrelated id 3 untouched,
and leaves task 2 stable. -/
theorem c3_cascade_direct_dependents_witness :
    (cascade_update_on_completion stateD 1).2 = dependentsOf stateD 1
    ∧ (cascade_update_on_completion stateD 1).1.tasks 3 = stateD.tasks 3
    ∧ (update_status_from_dependencies
        (cascade_update_on_completion stateD 1).1 2).2 = false :=
  ⟨(c3_cascade_direct_dependents stateD 1 ⟨"done", Status.completed⟩
      (by decide) rfl).1,
    (c3_cascade_direct_dependents stateD 1 ⟨"done", Status.completed⟩
      (by decide) rfl).2.2.1 3 (by decide),
    (c3_cascade_direct_dependents stateD 1 ⟨"done", Status.completed⟩
      (by decide) rfl).2.2.2 2 (Or.inl (by decide))⟩

/-- Claim C4: completion is sticky — derivation on a completed task writes
nothing and returns false, and no cascade pass ever alters a completed
task's record. -/
theorem c4_completed_is_sticky (s : State) (t u : Nat) (tk : Task)
    (htk : s.tasks t = some tk) (hc : tk.status = Status.completed) :
    update_status_from_dependencies s t = (s, false)
    ∧ (cascade_update_on_completion s u).1.tasks t = some tk :=
  ⟨derive_of_completed htk hc, cascade_completed_record u htk hc⟩

/-- Witness for C4 at the completed task 1 of `stateD` (cascading from
task 1 itself). -/
theorem c4_completed_is_sticky_witness :
    update_status_from_dependencies stateD 1 = (stateD, false)
    ∧ (cascade_update_on_completion stateD 1).1.tasks 1 =
        some ⟨"done", Status.completed⟩ :=
  c4_completed_is_sticky stateD 1 1 ⟨"done", Status.completed⟩ (by decide) rfl

/-- Claim C5 counterexample: task 1 of `stateB` is InProgress with a
pending prerequisite; derivation overrides it to Blocked and reports a
change — the engine does NOT leave InProgress alone. -/
theorem c5_in_progress_counterexample :
    statusOf stateB 1 = some Status.in_progress
    ∧ (update_status_from_dependencies stateB 1).2 = true
    ∧ statusOf (update_status_from_dependencies stateB 1).1 1 =
        some Status.blocked := by
  refine ⟨by decide, by decide, by decide⟩

/-- Claim C5 (amended): automatic derivation DOES override InProgress — a
task in InProgress with at least one prerequisite edge is always rewritten
to the derived Pending/Blocked value (which is never InProgress) and the
call reports a change; only Completed is protected by the guard. -/
theorem c5_derivation_overrides_in_progress (s : State) (t : Nat) (tk : Task)
    (htk : s.tasks t = some tk) (hip : tk.status = Status.in_progress)
    (hd : prereqEdges s t ≠ []) :
    (update_status_from_dependencies s t).2 = true
    ∧ statusOf (update_status_from_dependencies s t).1 t =
        some (deriveStatus s t)
    ∧ deriveStatus s t ≠ Status.in_progress := by
  have hne : tk.status ≠ deriveStatus s t := by
    rw [hip]
    exact fun he => deriveStatus_ne_in_progress s t he.symm
  have hnc : tk.status ≠ Status.completed := by
    rw [hip]
    decide
  have hch := derive_of_change htk hd hne hnc
  rw [hch]
  refine ⟨rfl, ?_, deriveStatus_ne_in_progress s t⟩
  simp [statusOf, setTaskStatus_tasks_self _ htk]

/-- Witness for the amended C5 at task 1 of `stateB`. -/
theorem c5_derivation_overrides_in_progress_witness :
    (update_status_from_dependencies stateB 1).2 = true
    ∧ statusOf (update_status_from_dependencies stateB 1).1 1 =
        some (deriveStatus stateB 1)
    ∧ deriveStatus stateB 1 ≠ Status.in_progress :=
  c5_derivation_overrides_in_progress stateB 1 ⟨"impl", Status.in_progress⟩
    (by decide) rfl (by decide)

/-- Claim C6: derivation and the cascade are idempotent — immediately
re-running derivation on the same task reports no change, and immediately
re-running a completed-task cascade leaves the store exactly as the first
pass left it (no further writes). -/
theorem c6_idempotence (s : State) (t : Nat) :
    (update_status_from_dependencies
      (update_status_from_dependencies s t).1 t).2 = false
    ∧ (cascade_update_on_completion
        (cascade_update_on_completion s t).1 t).1 =
      (cascade_update_on_completion s t).1 := by
  refine ⟨derive_derive_false s t, ?_⟩
  by_cases hcu : statusOf s t = some Status.completed
  · unfold statusOf at hcu
    cases htk : s.tasks t with
    | none => rw [htk] at hcu; simp at hcu
    | some tk =>
      rw [htk] at hcu
      simp only [Option.map_some', Option.some_inj] at hcu
      have h1 := cascade_completed htk hcu
      rw [h1]
      have htk1 : (foldDerive s (dependentsOf s t)).tasks t = some tk :=
        foldDerive_completed_record _ htk hcu
      have h2 := cascade_completed htk1 hcu
      rw [h2]
      rw [dependentsOf_congr t (foldDerive_edges s _)]
      exact foldDerive_id fun d hdm =>
        foldDerive_stable_mem s (dependentsOf_nodup s t) hdm
  · rw [cascade_not_completed hcu, cascade_not_completed hcu]

/-- Claim C8: deleting a task that has dependents fails, reporting every
dependent's id and title, and changes nothing; deleting a task with no
dependents removes the task together with exactly the edges in which it is
the dependent. -/
theorem c8_delete_guard (s : State) (t : Nat) (tk : Task)
    (htk : s.tasks t = some tk) :
    (s.edges.filter (fun e => e.2 = t) ≠ [] →
      destroy s t = (s, DestroyOutcome.hasDependents
        ((s.edges.filter (fun e => e.2 = t)).map (fun e => (e.1, titleOf s e.1))))
      ∧ ∀ d ttl,
          ((d, ttl) ∈ (s.edges.filter (fun e => e.2 = t)).map
            (fun e => (e.1, titleOf s e.1)) ↔
          ((d, t) ∈ s.edges ∧ ttl = titleOf s d)))
    ∧ (s.edges.filter (fun e => e.2 = t) = [] →
      destroy s t =
        ({ tasks := fun id => if id = t then none else s.tasks id,
           edges := s.edges.filter (fun e => e.1 ≠ t) },
         DestroyOutcome.deleted)) := by
  constructor
  · intro hdep
    have hlen : (s.edges.filter (fun e => e.2 = t)).length > 0 :=
      List.length_pos.mpr hdep
    constructor
    · unfold destroy
      rw [htk]
      simp [hlen]
    · intro d ttl
      constructor
      · intro hm
        obtain ⟨e, he, hpair⟩ := List.mem_map.mp hm
        obtain ⟨hmem, hsnd⟩ := List.mem_filter.mp he
        have hsnd2 : e.2 = t := by simpa using hsnd
        obtain ⟨h1, h2⟩ := Prod.mk.injEq .. ▸ hpair
        constructor
        · rw [← h1, ← hsnd2]
          exact hmem
        · rw [← h2, h1]
      · rintro ⟨hmem, httl⟩
        refine List.mem_map.mpr ⟨(d, t), List.mem_filter.mpr ⟨hmem, by simp⟩, ?_⟩
        rw [httl]
  · intro hnone
    have hfil : s.edges.filter (fun e => e.1 ≠ t ∧ e.2 ≠ t) =
        s.edges.filter (fun e => e.1 ≠ t) := by
      apply List.filter_congr
      intro e he
      have hne : e.2 ≠ t := by
        intro heq
        have : e ∈ s.edges.filter (fun e => e.2 = t) :=
          List.mem_filter.mpr ⟨he, by simp [heq]⟩
        rw [hnone] at this
        cases this
      simp [hne]
    unfold destroy
    rw [htk]
    simp only [hnone, List.length_nil, gt_iff_lt, Nat.lt_irrefl, if_false, hfil]

/-- Witness for C8 on `stateD`: deleting task 1 (prerequisite of 2) fails
listing dependent 2 with its title; deleting task 2 (no dependents)
removes it and its outgoing edge. -/
theorem c8_delete_guard_witness :
    destroy stateD 1 = (stateD, DestroyOutcome.hasDependents
      ((stateD.edges.filter (fun e => e.2 = 1)).map
        (fun e => (e.1, titleOf stateD e.1))))
    ∧ destroy stateD 2 =
        ({ tasks := fun id => if id = 2 then none else stateD.tasks id,
           edges := stateD.edges.filter (fun e => e.1 ≠ 2) },
         DestroyOutcome.deleted) :=
  ⟨((c8_delete_guard stateD 1 ⟨"done", Status.completed⟩ (by decide)).1
      (by decide)).1,
    (c8_delete_guard stateD 2 ⟨"next", Status.blocked⟩ (by decide)).2
      (by decide)⟩

/-- Claim C10: automatic derivation only ever writes Pending or Blocked —
never Completed or InProgress — and therefore the recursive cascade call
made right after a successful derivation always hits the not-Completed
guard and contributes nothing: no state change and no further derivations. -/
theorem c10_derivation_writes_pending_or_blocked (s : State) (t fuel : Nat)
    (h : (update_status_from_dependencies s t).2 = true) :
    (statusOf (update_status_from_dependencies s t).1 t = some Status.pending ∨
      statusOf (update_status_from_dependencies s t).1 t = some Status.blocked)
    ∧ cascadeAux fuel (update_status_from_dependencies s t).1 t =
        ((update_status_from_dependencies s t).1, []) := by
  refine ⟨?_, cascadeAux_dead h fuel⟩
  rw [derive_statusOf_true h]
  unfold deriveStatus
  by_cases hb : ((prereqEdges s t).all fun e => isCompleted s e.2) = true
  · rw [if_pos hb]
    exact Or.inl rfl
  · rw [if_neg hb]
    exact Or.inr rfl

/-- Witness for C10 at task 1 of `stateB`, whose derivation writes
Blocked. -/
theorem c10_derivation_writes_pending_or_blocked_witness :
    (statusOf (update_status_from_dependencies stateB 1).1 1 =
        some Status.pending ∨
      statusOf (update_status_from_dependencies stateB 1).1 1 =
        some Status.blocked)
    ∧ cascadeAux 2 (update_status_from_dependencies stateB 1).1 1 =
        ((update_status_from_dependencies stateB 1).1, []) :=
  c10_derivation_writes_pending_or_blocked stateB 1 2 (by decide)

end TaskDeps
